import Mathlib

/-!
Shallow embedding of the latent-cluster-correction (LCC) core pipeline:
the matching resolver, the boolean predicate engine, the nearest-neighbor
target synthesizer, the confusion-graph builder and the
heaviest-connected-subgraph selector, together with a model of the
notebook cell that reports the top confusion pair.
-/

/-- Number of samples that lie in cluster `k` and have true label `c`:
the multiplicity of label `c` in the multiset of true labels of cluster
`k`'s samples. -/
def countPairs (y_true y_clst : List Nat) (k c : Nat) : Nat :=
  ((y_true.zip y_clst).filter (fun p => p.1 == c && p.2 == k)).length

/-- Left fold picking the argument with the greatest value of `f`,
replacing the current best only on a strict increase, so the earliest
maximum in traversal order wins. -/
def argmaxFold {α : Type} (f : α → Nat) (l : List α) (b : α) : α :=
  l.foldl (fun x y => if f x < f y then y else x) b

theorem argmaxFold_cons {α : Type} (f : α → Nat) (y : α) (ys : List α)
    (b : α) :
    argmaxFold f (y :: ys) b =
      argmaxFold f ys (if f b < f y then y else b) := by
  simp [argmaxFold]

theorem argmaxFold_mem {α : Type} (f : α → Nat) :
    ∀ (l : List α) (b : α), argmaxFold f l b ∈ b :: l := by
  intro l
  induction l with
  | nil => intro b; simp [argmaxFold]
  | cons y ys ih =>
    intro b
    rw [argmaxFold_cons]
    have h := ih (if f b < f y then y else b)
    rcases List.mem_cons.mp h with h1 | h1
    · rw [h1]
      by_cases hb : f b < f y
      · simp [hb]
      · simp [hb]
    · simp [h1]

theorem argmaxFold_le {α : Type} (f : α → Nat) :
    ∀ (l : List α) (b : α), ∀ x ∈ b :: l, f x ≤ f (argmaxFold f l b) := by
  intro l
  induction l with
  | nil =>
    intro b x hx
    simp at hx
    simp [argmaxFold, hx]
  | cons y ys ih =>
    intro b x hx
    rw [argmaxFold_cons]
    have hbase : f (if f b < f y then y else b) ≤
        f (argmaxFold f ys (if f b < f y then y else b)) :=
      ih (if f b < f y then y else b) _ (List.mem_cons_self _ _)
    have hb : f b ≤ f (if f b < f y then y else b) := by
      by_cases hc : f b < f y
      · simp only [if_pos hc]; exact le_of_lt hc
      · simp only [if_neg hc]; exact le_refl _
    have hy : f y ≤ f (if f b < f y then y else b) := by
      by_cases hc : f b < f y
      · simp only [if_pos hc]; exact le_refl _
      · simp only [if_neg hc]; exact le_of_not_lt hc
    rcases List.mem_cons.mp hx with h1 | h1
    · subst h1; exact le_trans hb hbase
    · rcases List.mem_cons.mp h1 with h2 | h2
      · subst h2; exact le_trans hy hbase
      · exact ih (if f b < f y then y else b) x (List.mem_cons_of_mem _ h2)

/-- Modelled from the spec: the plurality (mode) choice used by the
matching resolver `resolve_matching` of `nlnas.correction.clustering`
(not under `src/`). Among classes `0, …, C-1` it picks the one with the
greatest count, breaking ties by the smallest class id. -/
def bestLabel (f : Nat → Nat) (C : Nat) : Nat :=
  argmaxFold f (List.range C) 0

theorem bestLabel_lt (f : Nat → Nat) (C : Nat) (hC : 0 < C) :
    bestLabel f C < C := by
  have h := argmaxFold_mem f (List.range C) 0
  rcases List.mem_cons.mp h with h1 | h1
  · rw [bestLabel, h1]; exact hC
  · exact List.mem_range.mp h1

theorem bestLabel_le (f : Nat → Nat) (C : Nat) :
    ∀ c, c < C → f c ≤ f (bestLabel f C) := by
  intro c hc
  exact argmaxFold_le f (List.range C) 0 c (by simp [List.mem_range, hc])

theorem bestLabel_succ (f : Nat → Nat) (C : Nat) :
    bestLabel f (C + 1) =
      if f (bestLabel f C) < f C then C else bestLabel f C := by
  simp [bestLabel, argmaxFold, List.range_succ, List.foldl_append]

theorem bestLabel_tie (f : Nat → Nat) (C : Nat) :
    ∀ c, c < bestLabel f C → f c < f (bestLabel f C) := by
  induction C with
  | zero => intro c hc; simp [bestLabel, argmaxFold] at hc
  | succ C ih =>
    intro c hc
    rw [bestLabel_succ] at hc ⊢
    by_cases h : f (bestLabel f C) < f C
    · rw [if_pos h] at hc ⊢
      by_cases hcC : c < bestLabel f C
      · exact lt_trans (ih c hcC) h
      · have : f c ≤ f (bestLabel f C) := by
          rcases Nat.lt_or_ge c C with h1 | h1
          · exact bestLabel_le f C c h1
          · omega
        exact lt_of_le_of_lt this h
    · rw [if_neg h] at hc ⊢
      exact ih c hc

/-- Modelled from the spec: `resolve_matching` of
`nlnas.correction.clustering` (not under `src/`). For each observed
cluster id `k` it computes the plurality true label of `k`'s samples
(ties broken by smallest class id) and assigns `k` to that class; the
value at `i` is the set of cluster ids assigned to class `i`. -/
def resolve_matching (C : Nat) (y_true y_clst : List Nat) (i : Nat) :
    Finset Nat :=
  y_clst.toFinset.filter
    (fun k => bestLabel (countPairs y_true y_clst k) C = i)

theorem resolve_matching_mem (C : Nat) (y_true y_clst : List Nat)
    (i k : Nat) :
    k ∈ resolve_matching C y_true y_clst i ↔
      k ∈ y_clst.toFinset ∧ bestLabel (countPairs y_true y_clst k) C = i := by
  simp [resolve_matching]

/-- Modelled from the spec: row `i` of the predicate matrix `p1` of
`otm_matching_predicates` in `nlnas.correction.clustering` (not under
`src/`): entry `j` holds iff sample `j` truly belongs to class `i`. -/
def p1row (y_true : List Nat) (i : Nat) : List Bool :=
  y_true.map (fun c => decide (c = i))

/-- Modelled from the spec: row `i` of `p2`: entry `j` holds iff sample
`j` lies in a cluster matched to class `i`. -/
def p2row (y_clst : List Nat) (M : Nat → Finset Nat) (i : Nat) :
    List Bool :=
  y_clst.map (fun k => decide (k ∈ M i))

/-- Modelled from the spec: row `i` of `p3` (misclustered): truly class
`i` but not in a cluster matched to `i`. -/
def p3row (y_true y_clst : List Nat) (M : Nat → Finset Nat) (i : Nat) :
    List Bool :=
  List.zipWith (fun a b => a && !b) (p1row y_true i) (p2row y_clst M i)

/-- Modelled from the spec: row `i` of `p4` (false positive): in a
cluster matched to `i` but not truly class `i`. -/
def p4row (y_true y_clst : List Nat) (M : Nat → Finset Nat) (i : Nat) :
    List Bool :=
  List.zipWith (fun a b => !a && b) (p1row y_true i) (p2row y_clst M i)

/-- Modelled from the spec: `otm_matching_predicates` of
`nlnas.correction.clustering` (not under `src/`): the four C×N boolean
predicate matrices. -/
def otm_matching_predicates (C : Nat) (y_true y_clst : List Nat)
    (M : Nat → Finset Nat) :
    List (List Bool) × List (List Bool) × List (List Bool) ×
      List (List Bool) :=
  ((List.range C).map (fun i => p1row y_true i),
   (List.range C).map (fun i => p2row y_clst M i),
   (List.range C).map (fun i => p3row y_true y_clst M i),
   (List.range C).map (fun i => p4row y_true y_clst M i))

/-- Modelled from the spec: row `i` of `p_mc`; the spec states that
`p_mc` is exactly `p3`. -/
def mcRow (y_true y_clst : List Nat) (M : Nat → Finset Nat) (i : Nat) :
    List Bool :=
  p3row y_true y_clst M i

/-- Modelled from the spec: row `i` of `p_cc` (correctly clustered):
truly class `i` and in a cluster matched to `i`. -/
def ccRow (y_true y_clst : List Nat) (M : Nat → Finset Nat) (i : Nat) :
    List Bool :=
  List.zipWith (fun a b => a && b) (p1row y_true i) (p2row y_clst M i)

/-- Modelled from the spec: `_mc_cc_predicates` of
`nlnas.correction.clustering` (not under `src/`): the pair of C×N
matrices `(p_mc, p_cc)`. -/
def mc_cc_predicates (C : Nat) (y_true y_clst : List Nat)
    (M : Nat → Finset Nat) :
    List (List Bool) × List (List Bool) :=
  ((List.range C).map (fun i => mcRow y_true y_clst M i),
   (List.range C).map (fun i => ccRow y_true y_clst M i))

/-- Entry `(i, j)` of a boolean matrix stored as a list of rows. -/
def entry (m : List (List Bool)) (i j : Nat) : Bool :=
  (m.getD i []).getD j false

theorem getD_map_of_lt {α β : Type} (f : α → β) (l : List α) (j : Nat)
    (hj : j < l.length) (d : β) :
    (l.map f).getD j d = f (l.get ⟨j, hj⟩) := by
  rw [List.getD_eq_getElem?_getD, List.getElem?_map,
    List.getElem?_eq_getElem hj]
  simp

theorem getD_zipWith_of_lt {α : Type} (f : α → α → α) :
    ∀ (as bs : List α) (j : Nat), j < as.length → j < bs.length →
      ∀ d, (List.zipWith f as bs).getD j d = f (as.getD j d) (bs.getD j d) := by
  intro as
  induction as with
  | nil => intro bs j hj; simp at hj
  | cons a as ih =>
    intro bs j hja hjb d
    cases bs with
    | nil => simp at hjb
    | cons b bs =>
      cases j with
      | zero => simp
      | succ j =>
        simp only [List.zipWith_cons_cons, List.getD_cons_succ]
        exact ih bs j (Nat.lt_of_succ_lt_succ hja)
          (Nat.lt_of_succ_lt_succ hjb) d

theorem rowEntry_of_map {α : Type} (g : α → Bool) (l : List α) (j : Nat)
    (hj : j < l.length) :
    (l.map g).getD j false = g (l.get ⟨j, hj⟩) :=
  getD_map_of_lt g l j hj false

theorem entry_matrix (rows : Nat → List Bool) (C i j : Nat) (hi : i < C) :
    entry ((List.range C).map rows) i j = (rows i).getD j false := by
  unfold entry
  rw [getD_map_of_lt rows (List.range C) i (by simpa using hi) []]
  simp

/-- C1: for equal-length integer label arrays, the matching returned by
the matching resolver assigns every observed cluster id to exactly one
true class's set: the per-class cluster-id sets are pairwise disjoint
and their union over all classes equals the set of observed cluster
ids. -/
theorem C1_matching_partition (C : Nat) (y_true y_clst : List Nat)
    (hlen : y_true.length = y_clst.length) (hC : ∀ c ∈ y_true, c < C) :
    (∀ i j, i ≠ j →
      Disjoint (resolve_matching C y_true y_clst i)
        (resolve_matching C y_true y_clst j))
    ∧ (Finset.range C).biUnion
        (fun i => resolve_matching C y_true y_clst i) = y_clst.toFinset := by
  constructor
  · intro i j hij
    rw [Finset.disjoint_left]
    intro k hki hkj
    rw [resolve_matching_mem] at hki hkj
    exact hij (hki.2.symm.trans hkj.2)
  · apply Finset.Subset.antisymm
    · intro k hk
      rw [Finset.mem_biUnion] at hk
      obtain ⟨i, _, hki⟩ := hk
      exact ((resolve_matching_mem C y_true y_clst i k).mp hki).1
    · intro k hk
      rw [Finset.mem_biUnion]
      have hkmem : k ∈ y_clst := List.mem_toFinset.mp hk
      have hytne : y_true ≠ [] := by
        intro h
        rw [h] at hlen
        simp only [List.length_nil] at hlen
        have : y_clst = [] := List.length_eq_zero.mp hlen.symm
        rw [this] at hkmem
        simp at hkmem
      obtain ⟨c, hc⟩ := List.exists_mem_of_ne_nil y_true hytne
      have hCpos : 0 < C := lt_of_le_of_lt (Nat.zero_le _) (hC c hc)
      refine ⟨bestLabel (countPairs y_true y_clst k) C, ?_, ?_⟩
      · exact Finset.mem_range.mpr (bestLabel_lt _ _ hCpos)
      · rw [resolve_matching_mem]
        exact ⟨hk, rfl⟩

/-- Witness for C1 at `y_true = [0, 1]`, `y_clst = [3, 3]`, `C = 2`. -/
theorem C1_matching_partition_witness :
    (∀ i j, i ≠ j →
      Disjoint (resolve_matching 2 [0, 1] [3, 3] i)
        (resolve_matching 2 [0, 1] [3, 3] j))
    ∧ (Finset.range 2).biUnion
        (fun i => resolve_matching 2 [0, 1] [3, 3] i)
        = ([3, 3] : List Nat).toFinset :=
  C1_matching_partition 2 [0, 1] [3, 3] (by decide) (by decide)

/-- C2: the matching resolver assigns each observed cluster `k` to the
plurality (mode) true label among the samples of cluster `k`, breaking
ties by the smallest class id (any class below the chosen one has a
strictly smaller count); and on the scenario `y_true = [0,0,1,1]`,
`y_clst = [5,5,6,6]` the matching is `{0 ↦ {5}, 1 ↦ {6}}`, `p_cc` is
`[[T,T,F,F],[F,F,T,T]]` and `p_mc` is all-False. -/
theorem C2_plurality_mode :
    (∀ (C : Nat) (y_true y_clst : List Nat) (i k : Nat),
        k ∈ resolve_matching C y_true y_clst i →
          (∀ c, c < C →
            countPairs y_true y_clst k c ≤ countPairs y_true y_clst k i)
          ∧ (∀ c, c < i →
            countPairs y_true y_clst k c < countPairs y_true y_clst k i))
    ∧ resolve_matching 2 [0, 0, 1, 1] [5, 5, 6, 6] 0 = {5}
    ∧ resolve_matching 2 [0, 0, 1, 1] [5, 5, 6, 6] 1 = {6}
    ∧ (mc_cc_predicates 2 [0, 0, 1, 1] [5, 5, 6, 6]
        (resolve_matching 2 [0, 0, 1, 1] [5, 5, 6, 6])).2
        = [[true, true, false, false], [false, false, true, true]]
    ∧ (mc_cc_predicates 2 [0, 0, 1, 1] [5, 5, 6, 6]
        (resolve_matching 2 [0, 0, 1, 1] [5, 5, 6, 6])).1
        = [[false, false, false, false], [false, false, false, false]] := by
  refine ⟨?_, by decide, by decide, by decide, by decide⟩
  intro C y_true y_clst i k hk
  rw [resolve_matching_mem] at hk
  obtain ⟨-, hbl⟩ := hk
  subst hbl
  exact ⟨fun c hc => bestLabel_le _ C c hc,
    fun c hc => bestLabel_tie _ C c hc⟩

/-- Witness for C2's universally quantified part, instantiated at the
scenario input with cluster `5` matched to class `0`. -/
theorem C2_plurality_mode_witness :
    (∀ c, c < 2 →
      countPairs [0, 0, 1, 1] [5, 5, 6, 6] 5 c ≤
        countPairs [0, 0, 1, 1] [5, 5, 6, 6] 5 0)
    ∧ (∀ c, c < 0 →
      countPairs [0, 0, 1, 1] [5, 5, 6, 6] 5 c <
        countPairs [0, 0, 1, 1] [5, 5, 6, 6] 5 0) :=
  C2_plurality_mode.1 2 [0, 0, 1, 1] [5, 5, 6, 6] 0 5 (by decide)

theorem getD_map_range (rows : Nat → List Bool) (C i : Nat) (hi : i < C) :
    ((List.range C).map rows).getD i [] = rows i := by
  rw [getD_map_of_lt rows (List.range C) i (by simpa using hi) []]
  simp

/-- C3: the four matrices returned by `otm_matching_predicates` are
C×N, and entrywise: `p1[i,j]` iff sample `j` is truly class `i`,
`p2[i,j]` iff its cluster is matched to `i`, `p3[i,j]` iff `p1` and not
`p2`, and `p4[i,j]` iff `p2` and not `p1`. -/
theorem C3_otm_predicates (C : Nat) (y_true y_clst : List Nat)
    (M : Nat → Finset Nat) (i j : Nat) (hi : i < C)
    (hj1 : j < y_true.length) (hj2 : j < y_clst.length)
    (hlen : y_true.length = y_clst.length) :
    ((otm_matching_predicates C y_true y_clst M).1.length = C
      ∧ (otm_matching_predicates C y_true y_clst M).2.1.length = C
      ∧ (otm_matching_predicates C y_true y_clst M).2.2.1.length = C
      ∧ (otm_matching_predicates C y_true y_clst M).2.2.2.length = C)
    ∧ (∀ r ∈ (otm_matching_predicates C y_true y_clst M).1,
        r.length = y_true.length)
    ∧ (∀ r ∈ (otm_matching_predicates C y_true y_clst M).2.2.1,
        r.length = y_true.length)
    ∧ (entry (otm_matching_predicates C y_true y_clst M).1 i j = true
        ↔ y_true.get ⟨j, hj1⟩ = i)
    ∧ (entry (otm_matching_predicates C y_true y_clst M).2.1 i j = true
        ↔ y_clst.get ⟨j, hj2⟩ ∈ M i)
    ∧ (entry (otm_matching_predicates C y_true y_clst M).2.2.1 i j = true
        ↔ (entry (otm_matching_predicates C y_true y_clst M).1 i j = true
          ∧ ¬ entry (otm_matching_predicates C y_true y_clst M).2.1 i j
              = true))
    ∧ (entry (otm_matching_predicates C y_true y_clst M).2.2.2 i j = true
        ↔ (entry (otm_matching_predicates C y_true y_clst M).2.1 i j = true
          ∧ ¬ entry (otm_matching_predicates C y_true y_clst M).1 i j
              = true)) := by
  have e1 : entry (otm_matching_predicates C y_true y_clst M).1 i j
      = (p1row y_true i).getD j false :=
    entry_matrix (fun i => p1row y_true i) C i j hi
  have e2 : entry (otm_matching_predicates C y_true y_clst M).2.1 i j
      = (p2row y_clst M i).getD j false :=
    entry_matrix (fun i => p2row y_clst M i) C i j hi
  have e3 : entry (otm_matching_predicates C y_true y_clst M).2.2.1 i j
      = (p3row y_true y_clst M i).getD j false :=
    entry_matrix (fun i => p3row y_true y_clst M i) C i j hi
  have e4 : entry (otm_matching_predicates C y_true y_clst M).2.2.2 i j
      = (p4row y_true y_clst M i).getD j false :=
    entry_matrix (fun i => p4row y_true y_clst M i) C i j hi
  have v1 : (p1row y_true i).getD j false
      = decide (y_true.get ⟨j, hj1⟩ = i) :=
    rowEntry_of_map (fun c => decide (c = i)) y_true j hj1
  have v2 : (p2row y_clst M i).getD j false
      = decide (y_clst.get ⟨j, hj2⟩ ∈ M i) :=
    rowEntry_of_map (fun k => decide (k ∈ M i)) y_clst j hj2
  have l1 : j < (p1row y_true i).length := by simpa [p1row] using hj1
  have l2 : j < (p2row y_clst M i).length := by simpa [p2row] using hj2
  have v3 : (p3row y_true y_clst M i).getD j false
      = ((p1row y_true i).getD j false
          && !((p2row y_clst M i).getD j false)) := by
    simp only [p3row]
    exact getD_zipWith_of_lt (fun a b => a && !b) _ _ j l1 l2 false
  have v4 : (p4row y_true y_clst M i).getD j false
      = (!((p1row y_true i).getD j false)
          && (p2row y_clst M i).getD j false) := by
    simp only [p4row]
    exact getD_zipWith_of_lt (fun a b => !a && b) _ _ j l1 l2 false
  refine ⟨⟨?_, ?_, ?_, ?_⟩, ?_, ?_, ?_, ?_, ?_, ?_⟩
  · simp [otm_matching_predicates]
  · simp [otm_matching_predicates]
  · simp [otm_matching_predicates]
  · simp [otm_matching_predicates]
  · intro r hr
    simp only [otm_matching_predicates, List.mem_map] at hr
    obtain ⟨a, -, rfl⟩ := hr
    simp [p1row]
  · intro r hr
    simp only [otm_matching_predicates, List.mem_map] at hr
    obtain ⟨a, -, rfl⟩ := hr
    simp [p3row, p1row, p2row, hlen]
  · rw [e1, v1]
    exact decide_eq_true_iff
  · rw [e2, v2]
    exact decide_eq_true_iff
  · rw [e3, v3, e1, e2]
    cases (p1row y_true i).getD j false <;>
      cases (p2row y_clst M i).getD j false <;> simp
  · rw [e4, v4, e1, e2]
    cases (p1row y_true i).getD j false <;>
      cases (p2row y_clst M i).getD j false <;> simp

/-- Witness for C3 at `y_true = [0, 1]`, `y_clst = [5, 6]`,
`M = resolve_matching 2 [0, 1] [5, 6]`, `i = 0`, `j = 1`. -/
theorem C3_otm_predicates_witness :
    ((otm_matching_predicates 2 [0, 1] [5, 6]
        (resolve_matching 2 [0, 1] [5, 6])).1.length = 2
      ∧ (otm_matching_predicates 2 [0, 1] [5, 6]
        (resolve_matching 2 [0, 1] [5, 6])).2.1.length = 2
      ∧ (otm_matching_predicates 2 [0, 1] [5, 6]
        (resolve_matching 2 [0, 1] [5, 6])).2.2.1.length = 2
      ∧ (otm_matching_predicates 2 [0, 1] [5, 6]
        (resolve_matching 2 [0, 1] [5, 6])).2.2.2.length = 2)
    ∧ (∀ r ∈ (otm_matching_predicates 2 [0, 1] [5, 6]
        (resolve_matching 2 [0, 1] [5, 6])).1,
        r.length = ([0, 1] : List Nat).length)
    ∧ (∀ r ∈ (otm_matching_predicates 2 [0, 1] [5, 6]
        (resolve_matching 2 [0, 1] [5, 6])).2.2.1,
        r.length = ([0, 1] : List Nat).length)
    ∧ (entry (otm_matching_predicates 2 [0, 1] [5, 6]
        (resolve_matching 2 [0, 1] [5, 6])).1 0 1 = true
        ↔ ([0, 1] : List Nat).get ⟨1, by decide⟩ = 0)
    ∧ (entry (otm_matching_predicates 2 [0, 1] [5, 6]
        (resolve_matching 2 [0, 1] [5, 6])).2.1 0 1 = true
        ↔ ([5, 6] : List Nat).get ⟨1, by decide⟩
            ∈ resolve_matching 2 [0, 1] [5, 6] 0)
    ∧ (entry (otm_matching_predicates 2 [0, 1] [5, 6]
        (resolve_matching 2 [0, 1] [5, 6])).2.2.1 0 1 = true
        ↔ (entry (otm_matching_predicates 2 [0, 1] [5, 6]
            (resolve_matching 2 [0, 1] [5, 6])).1 0 1 = true
          ∧ ¬ entry (otm_matching_predicates 2 [0, 1] [5, 6]
              (resolve_matching 2 [0, 1] [5, 6])).2.1 0 1 = true))
    ∧ (entry (otm_matching_predicates 2 [0, 1] [5, 6]
        (resolve_matching 2 [0, 1] [5, 6])).2.2.2 0 1 = true
        ↔ (entry (otm_matching_predicates 2 [0, 1] [5, 6]
            (resolve_matching 2 [0, 1] [5, 6])).2.1 0 1 = true
          ∧ ¬ entry (otm_matching_predicates 2 [0, 1] [5, 6]
              (resolve_matching 2 [0, 1] [5, 6])).1 0 1 = true)) :=
  C3_otm_predicates 2 [0, 1] [5, 6] (resolve_matching 2 [0, 1] [5, 6])
    0 1 (by decide) (by decide) (by decide) (by decide)

theorem zip_or_and_cover :
    ∀ (xs ys : List Bool), xs.length = ys.length →
      List.zipWith (fun a b => a || b)
        (List.zipWith (fun a b => a && b) xs ys)
        (List.zipWith (fun a b => a && !b) xs ys) = xs := by
  intro xs
  induction xs with
  | nil => intro ys h; simp
  | cons x xs ih =>
    intro ys h
    cases ys with
    | nil => simp at h
    | cons y ys =>
      simp only [List.zipWith_cons_cons, List.cons.injEq]
      exact ⟨by cases x <;> cases y <;> rfl, ih ys (by simpa using h)⟩

theorem zip_and_disjoint :
    ∀ (xs ys : List Bool), xs.length = ys.length →
      List.zipWith (fun a b => a && b)
        (List.zipWith (fun a b => a && b) xs ys)
        (List.zipWith (fun a b => a && !b) xs ys)
        = List.replicate xs.length false := by
  intro xs
  induction xs with
  | nil => intro ys h; simp
  | cons x xs ih =>
    intro ys h
    cases ys with
    | nil => simp at h
    | cons y ys =>
      simp only [List.zipWith_cons_cons, List.length_cons,
        List.replicate_succ, List.cons.injEq]
      exact ⟨by cases x <;> cases y <;> rfl, ih ys (by simpa using h)⟩

theorem p1row_count (y_true : List Nat) (i : Nat) :
    (p1row y_true i).count true = y_true.count i := by
  induction y_true with
  | nil => rfl
  | cons c cs ih =>
    simp only [p1row, List.map_cons, List.count_cons] at ih ⊢
    by_cases h : c = i <;> simp [h, ih]

/-- C4: for every class `i`, the correctly-clustered and misclustered
masks returned by the mc/cc predicate function disjointly cover exactly
row `i` of `p1` (their pointwise OR is `p1[i]` and their pointwise AND
is all-False), and the number of True entries of `p1[i]` equals the
number of samples whose true label is `i`. -/
theorem C4_mc_cc_cover (C : Nat) (y_true y_clst : List Nat)
    (M : Nat → Finset Nat) (i : Nat) (hi : i < C)
    (hlen : y_true.length = y_clst.length) :
    List.zipWith (fun a b => a || b)
        ((mc_cc_predicates C y_true y_clst M).2.getD i [])
        ((mc_cc_predicates C y_true y_clst M).1.getD i [])
      = p1row y_true i
    ∧ List.zipWith (fun a b => a && b)
        ((mc_cc_predicates C y_true y_clst M).2.getD i [])
        ((mc_cc_predicates C y_true y_clst M).1.getD i [])
      = List.replicate y_true.length false
    ∧ (p1row y_true i).count true = y_true.count i := by
  have hcc : (mc_cc_predicates C y_true y_clst M).2.getD i []
      = ccRow y_true y_clst M i :=
    getD_map_range (fun i => ccRow y_true y_clst M i) C i hi
  have hmc : (mc_cc_predicates C y_true y_clst M).1.getD i []
      = mcRow y_true y_clst M i :=
    getD_map_range (fun i => mcRow y_true y_clst M i) C i hi
  rw [hcc, hmc]
  have hl : (p1row y_true i).length = (p2row y_clst M i).length := by
    simp [p1row, p2row, hlen]
  refine ⟨?_, ?_, p1row_count y_true i⟩
  · simp only [ccRow, mcRow, p3row]
    exact zip_or_and_cover (p1row y_true i) (p2row y_clst M i) hl
  · simp only [ccRow, mcRow, p3row]
    have h := zip_and_disjoint (p1row y_true i) (p2row y_clst M i) hl
    simpa [p1row] using h

/-- Witness for C4 at `y_true = [0, 1, 0]`, `y_clst = [5, 6, 6]`,
`M = resolve_matching 2 [0, 1, 0] [5, 6, 6]`, `i = 0`. -/
theorem C4_mc_cc_cover_witness :
    List.zipWith (fun a b => a || b)
        ((mc_cc_predicates 2 [0, 1, 0] [5, 6, 6]
          (resolve_matching 2 [0, 1, 0] [5, 6, 6])).2.getD 0 [])
        ((mc_cc_predicates 2 [0, 1, 0] [5, 6, 6]
          (resolve_matching 2 [0, 1, 0] [5, 6, 6])).1.getD 0 [])
      = p1row [0, 1, 0] 0
    ∧ List.zipWith (fun a b => a && b)
        ((mc_cc_predicates 2 [0, 1, 0] [5, 6, 6]
          (resolve_matching 2 [0, 1, 0] [5, 6, 6])).2.getD 0 [])
        ((mc_cc_predicates 2 [0, 1, 0] [5, 6, 6]
          (resolve_matching 2 [0, 1, 0] [5, 6, 6])).1.getD 0 [])
      = List.replicate ([0, 1, 0] : List Nat).length false
    ∧ (p1row [0, 1, 0] 0).count true = ([0, 1, 0] : List Nat).count 0 :=
  C4_mc_cc_cover 2 [0, 1, 0] [5, 6, 6]
    (resolve_matching 2 [0, 1, 0] [5, 6, 6]) 0 (by decide) (by decide)

/-- Rows of `rows` selected by the boolean `mask`, in ascending index
order. -/
def selectRows {α : Type} (rows : List α) (mask : List Bool) : List α :=
  (rows.zip mask).filterMap (fun p => if p.2 then some p.1 else none)

/-- Indices at which `mask` holds, in ascending order. -/
def trueIndices (mask : List Bool) : List Nat :=
  (List.range mask.length).filter (fun j => mask.getD j false)

theorem selectRows_cons {α : Type} (r : α) (rs : List α) (b : Bool)
    (bs : List Bool) :
    selectRows (r :: rs) (b :: bs)
      = (if b then [r] else []) ++ selectRows rs bs := by
  cases b <;> simp [selectRows, List.filterMap_cons]

theorem trueIndices_cons (b : Bool) (bs : List Bool) :
    trueIndices (b :: bs)
      = (if b then [0] else []) ++ (trueIndices bs).map (fun j => j + 1) := by
  unfold trueIndices
  simp only [List.length_cons, List.range_succ_eq_map, List.filter_cons]
  rw [List.filter_map]
  have hco : ∀ j ∈ List.range bs.length,
      ((fun j => (b :: bs).getD j false) ∘ Nat.succ) j
        = (fun j => bs.getD j false) j := by
    intro j hj
    simp [Function.comp]
  rw [List.filter_congr hco]
  cases b <;> simp [Nat.succ_eq_add_one]

theorem selectRows_length {α : Type} :
    ∀ (rows : List α) (mask : List Bool), rows.length = mask.length →
      (selectRows rows mask).length = mask.count true := by
  intro rows
  induction rows with
  | nil =>
    intro mask h
    cases mask with
    | nil => rfl
    | cons b bs => simp at h
  | cons r rs ih =>
    intro mask h
    cases mask with
    | nil => simp at h
    | cons b bs =>
      rw [selectRows_cons]
      cases b <;>
        simp [List.count_cons, ih bs (by simpa using h)]

theorem selectRows_eq_map {α : Type} (d : α) :
    ∀ (rows : List α) (mask : List Bool), rows.length = mask.length →
      selectRows rows mask
        = (trueIndices mask).map (fun j => rows.getD j d) := by
  intro rows
  induction rows with
  | nil =>
    intro mask h
    cases mask with
    | nil => rfl
    | cons b bs => simp at h
  | cons r rs ih =>
    intro mask h
    cases mask with
    | nil => simp at h
    | cons b bs =>
      rw [selectRows_cons, trueIndices_cons, List.map_append,
        List.map_map]
      have h2 : (trueIndices bs).map
          ((fun j => (r :: rs).getD j d) ∘ fun j => j + 1)
          = (trueIndices bs).map (fun j => rs.getD j d) := by
        apply List.map_congr_left
        intro j hj
        simp [Function.comp]
      rw [h2, ← ih bs (by simpa using h)]
      cases b <;> simp

/-- Squared euclidean distance between two latent vectors (coordinates
paired up to the shorter length). -/
def dist2 (u v : List ℚ) : ℚ :=
  ((u.zip v).map (fun p => (p.1 - p.2) * (p.1 - p.2))).sum

/-- Modelled from the spec: the nearest-neighbor collaborator's query
contract (the concrete ANN engine is not under `src/`): brute-force
nearest neighbor of `q` within the fitted pool, ties broken by the
earliest pool row. Returns the empty vector on an empty pool. -/
def nnQuery (pool : List (List ℚ)) (q : List ℚ) : List ℚ :=
  match pool with
  | [] => []
  | p :: ps =>
      ps.foldl (fun best r => if dist2 r q < dist2 best q then r else best) p

theorem foldl_pick_mem {α : Type} (pick : α → α → α)
    (hp : ∀ x y, pick x y = x ∨ pick x y = y) :
    ∀ (l : List α) (b : α), l.foldl pick b ∈ b :: l := by
  intro l
  induction l with
  | nil => intro b; simp
  | cons y ys ih =>
    intro b
    rw [List.foldl_cons]
    have h := ih (pick b y)
    rcases List.mem_cons.mp h with h1 | h1
    · rw [h1]
      rcases hp b y with h2 | h2 <;> simp [h2]
    · simp [h1]

theorem nnQuery_mem (pool : List (List ℚ)) (q : List ℚ)
    (h : pool ≠ []) : nnQuery pool q ∈ pool := by
  cases pool with
  | nil => exact absurd rfl h
  | cons p ps =>
    have := foldl_pick_mem
      (fun best r => if dist2 r q < dist2 best q then r else best)
      (by
        intro x y
        by_cases hc : dist2 y q < dist2 x q
        · right; simp [hc]
        · left; simp [hc]) ps p
    simpa [nnQuery] using this

/-- Modelled from the spec: `lcc_targets` of
`nlnas.correction.clustering` (not under `src/`). For each class `i`
present in `knn` (paired with the fitting pool of its nearest-neighbor
index), it selects the misclustered samples of class `i` in ascending
sample-index order and queries the pool for each one's nearest
correctly-clustered same-class neighbor, emitting the pair
`(p_mc[i], target matrix)`. -/
def lcc_targets (emb : List (List ℚ)) (y_true y_clst : List Nat)
    (M : Nat → Finset Nat) (knn : List (Nat × List (List ℚ))) :
    List (Nat × (List Bool × List (List ℚ))) :=
  knn.map (fun e =>
    (e.1, (mcRow y_true y_clst M e.1,
      (selectRows emb (mcRow y_true y_clst M e.1)).map (nnQuery e.2))))

theorem mcRow_length (y_true y_clst : List Nat) (M : Nat → Finset Nat)
    (emb : List (List ℚ)) (i : Nat)
    (hlen1 : y_true.length = y_clst.length)
    (hlen2 : emb.length = y_true.length) :
    (mcRow y_true y_clst M i).length = emb.length := by
  simp only [mcRow, p3row, List.length_zipWith, p1row, p2row,
    List.length_map]
  omega

/-- C5: the mapping returned by `lcc_targets` has exactly the key set of
`knn_indices`; each emitted class's target matrix has one row per True
entry of `p_mc[i]` (so zero misclustered samples give an empty matrix),
each row has dimension `D`, and row `k` is the query result for the
embedding at the `k`-th True index of the mask in ascending
sample-index order. -/
theorem C5_lcc_targets (D : Nat) (emb : List (List ℚ))
    (y_true y_clst : List Nat) (M : Nat → Finset Nat)
    (knn : List (Nat × List (List ℚ)))
    (hlen1 : y_true.length = y_clst.length)
    (hlen2 : emb.length = y_true.length)
    (hpool : ∀ e ∈ knn, e.2 ≠ [] ∧ ∀ r ∈ e.2, r.length = D) :
    (lcc_targets emb y_true y_clst M knn).map Prod.fst
        = knn.map Prod.fst
    ∧ (∀ e ∈ lcc_targets emb y_true y_clst M knn,
        e.2.2.length = e.2.1.count true)
    ∧ (∀ e ∈ lcc_targets emb y_true y_clst M knn,
        ∀ r ∈ e.2.2, r.length = D)
    ∧ (∀ i pool, (i, pool) ∈ knn →
        (i, (mcRow y_true y_clst M i,
          (trueIndices (mcRow y_true y_clst M i)).map
            (fun j => nnQuery pool (emb.getD j [])))) ∈
          lcc_targets emb y_true y_clst M knn)
    ∧ (∀ e ∈ lcc_targets emb y_true y_clst M knn,
        e.2.1.count true = 0 → e.2.2 = []) := by
  have hmask : ∀ i, emb.length = (mcRow y_true y_clst M i).length :=
    fun i => (mcRow_length y_true y_clst M emb i hlen1 hlen2).symm
  have hlenrows : ∀ e ∈ lcc_targets emb y_true y_clst M knn,
      e.2.2.length = e.2.1.count true := by
    intro e he
    simp only [lcc_targets, List.mem_map] at he
    obtain ⟨a, -, rfl⟩ := he
    simp only [List.length_map]
    exact selectRows_length emb _ (hmask a.1)
  refine ⟨?_, hlenrows, ?_, ?_, ?_⟩
  · rw [lcc_targets, List.map_map]
    rfl
  · intro e he r hr
    simp only [lcc_targets, List.mem_map] at he
    obtain ⟨a, ha, rfl⟩ := he
    simp only [List.mem_map] at hr
    obtain ⟨q, -, rfl⟩ := hr
    exact (hpool a ha).2 _ (nnQuery_mem a.2 q (hpool a ha).1)
  · intro i pool hmem
    have hsel : (selectRows emb (mcRow y_true y_clst M i)).map
        (nnQuery pool)
        = (trueIndices (mcRow y_true y_clst M i)).map
            (fun j => nnQuery pool (emb.getD j [])) := by
      rw [selectRows_eq_map ([] : List ℚ) emb _ (hmask i), List.map_map]
      rfl
    rw [← hsel]
    exact List.mem_map_of_mem _ hmem
  · intro e he hcnt
    have h := hlenrows e he
    rw [hcnt] at h
    exact List.eq_nil_of_length_eq_zero h

/-- Witness for C5: a 4-sample, 2-class scenario with one misclustered
sample for class 0 and pools of dimension 1. -/
theorem C5_lcc_targets_witness :
    (lcc_targets [[(1 : ℚ)], [2], [3], [4]] [0, 0, 1, 1] [5, 6, 6, 6]
        (resolve_matching 2 [0, 0, 1, 1] [5, 6, 6, 6])
        [(0, [[(1 : ℚ)]]), (1, [[(3 : ℚ)], [4]])]).map Prod.fst
        = [(0, [[(1 : ℚ)]]), (1, [[(3 : ℚ)], [4]])].map Prod.fst
    ∧ (∀ e ∈ lcc_targets [[(1 : ℚ)], [2], [3], [4]] [0, 0, 1, 1]
          [5, 6, 6, 6] (resolve_matching 2 [0, 0, 1, 1] [5, 6, 6, 6])
          [(0, [[(1 : ℚ)]]), (1, [[(3 : ℚ)], [4]])],
        e.2.2.length = e.2.1.count true)
    ∧ (∀ e ∈ lcc_targets [[(1 : ℚ)], [2], [3], [4]] [0, 0, 1, 1]
          [5, 6, 6, 6] (resolve_matching 2 [0, 0, 1, 1] [5, 6, 6, 6])
          [(0, [[(1 : ℚ)]]), (1, [[(3 : ℚ)], [4]])],
        ∀ r ∈ e.2.2, r.length = 1)
    ∧ (∀ i pool,
        (i, pool) ∈ [(0, [[(1 : ℚ)]]), (1, [[(3 : ℚ)], [4]])] →
        (i, (mcRow [0, 0, 1, 1] [5, 6, 6, 6]
            (resolve_matching 2 [0, 0, 1, 1] [5, 6, 6, 6]) i,
          (trueIndices (mcRow [0, 0, 1, 1] [5, 6, 6, 6]
              (resolve_matching 2 [0, 0, 1, 1] [5, 6, 6, 6]) i)).map
            (fun j =>
              nnQuery pool
                (([[(1 : ℚ)], [2], [3], [4]]).getD j [])))) ∈
          lcc_targets [[(1 : ℚ)], [2], [3], [4]] [0, 0, 1, 1]
            [5, 6, 6, 6] (resolve_matching 2 [0, 0, 1, 1] [5, 6, 6, 6])
            [(0, [[(1 : ℚ)]]), (1, [[(3 : ℚ)], [4]])])
    ∧ (∀ e ∈ lcc_targets [[(1 : ℚ)], [2], [3], [4]] [0, 0, 1, 1]
          [5, 6, 6, 6] (resolve_matching 2 [0, 0, 1, 1] [5, 6, 6, 6])
          [(0, [[(1 : ℚ)]]), (1, [[(3 : ℚ)], [4]])],
        e.2.1.count true = 0 → e.2.2 = []) :=
  C5_lcc_targets 1 [[(1 : ℚ)], [2], [3], [4]] [0, 0, 1, 1] [5, 6, 6, 6]
    (resolve_matching 2 [0, 0, 1, 1] [5, 6, 6, 6])
    [(0, [[(1 : ℚ)]]), (1, [[(3 : ℚ)], [4]])]
    (by decide) (by decide) (by decide)

theorem ccRow_length (y_true y_clst : List Nat) (M : Nat → Finset Nat)
    (emb : List (List ℚ)) (i : Nat)
    (hlen1 : y_true.length = y_clst.length)
    (hlen2 : emb.length = y_true.length) :
    (ccRow y_true y_clst M i).length = emb.length := by
  simp only [ccRow, List.length_zipWith, p1row, p2row, List.length_map]
  omega

/-- Modelled from the spec: the `knn_indices` field of the
`LatentClusteringData` built by `full_dataset_latent_clustering` in
`nlnas.classifiers.base` (not under `src/`): for each class with at
least one correctly-clustered sample, the embeddings restricted to
`p_cc[i]` (the fitting set of that class's nearest-neighbor index);
classes with an empty fitting set are absent. -/
def knn_indices_of (C : Nat) (emb : List (List ℚ))
    (y_true y_clst : List Nat) (M : Nat → Finset Nat) :
    List (Nat × List (List ℚ)) :=
  (List.range C).filterMap (fun i =>
    if selectRows emb (ccRow y_true y_clst M i) = [] then none
    else some (i, selectRows emb (ccRow y_true y_clst M i)))

/-- C9: every fitting matrix stored in `knn_indices` equals the latent
embedding matrix restricted to the True rows of `p_cc[i]` in ascending
sample-index order, is non-empty, and its row count (the number of
fitted samples the index reports) equals the True count of
`p_cc[i]`. -/
theorem C9_knn_fitting_sets (C : Nat) (emb : List (List ℚ))
    (y_true y_clst : List Nat) (M : Nat → Finset Nat)
    (hlen1 : y_true.length = y_clst.length)
    (hlen2 : emb.length = y_true.length) :
    ∀ i pool, (i, pool) ∈ knn_indices_of C emb y_true y_clst M →
      pool = selectRows emb (ccRow y_true y_clst M i)
      ∧ pool = (trueIndices (ccRow y_true y_clst M i)).map
          (fun j => emb.getD j [])
      ∧ pool.length = (ccRow y_true y_clst M i).count true
      ∧ pool ≠ [] := by
  intro i pool hmem
  simp only [knn_indices_of, List.mem_filterMap, List.mem_range] at hmem
  obtain ⟨a, -, ha⟩ := hmem
  by_cases hsel : selectRows emb (ccRow y_true y_clst M a) = []
  · rw [if_pos hsel] at ha
    exact absurd ha (by simp)
  · rw [if_neg hsel] at ha
    obtain ⟨rfl, rfl⟩ : a = i ∧ selectRows emb (ccRow y_true y_clst M a)
        = pool := by
      have := Option.some.inj ha
      exact ⟨congrArg Prod.fst this, congrArg Prod.snd this⟩
    have hcclen : emb.length = (ccRow y_true y_clst M a).length :=
      (ccRow_length y_true y_clst M emb a hlen1 hlen2).symm
    refine ⟨rfl, ?_, ?_, hsel⟩
    · exact selectRows_eq_map ([] : List ℚ) emb _ hcclen
    · exact selectRows_length emb _ hcclen

/-- Witness for C9 on the 4-sample, 2-class scenario. -/
theorem C9_knn_fitting_sets_witness :
    ([[(3 : ℚ)], [4]] : List (List ℚ))
        = selectRows [[(1 : ℚ)], [2], [3], [4]]
            (ccRow [0, 0, 1, 1] [5, 6, 6, 6]
              (resolve_matching 2 [0, 0, 1, 1] [5, 6, 6, 6]) 1)
    ∧ ([[(3 : ℚ)], [4]] : List (List ℚ))
        = (trueIndices (ccRow [0, 0, 1, 1] [5, 6, 6, 6]
            (resolve_matching 2 [0, 0, 1, 1] [5, 6, 6, 6]) 1)).map
            (fun j => ([[(1 : ℚ)], [2], [3], [4]]).getD j [])
    ∧ ([[(3 : ℚ)], [4]] : List (List ℚ)).length
        = (ccRow [0, 0, 1, 1] [5, 6, 6, 6]
            (resolve_matching 2 [0, 0, 1, 1] [5, 6, 6, 6]) 1).count true
    ∧ ([[(3 : ℚ)], [4]] : List (List ℚ)) ≠ [] :=
  C9_knn_fitting_sets 2 [[(1 : ℚ)], [2], [3], [4]] [0, 0, 1, 1]
    [5, 6, 6, 6] (resolve_matching 2 [0, 0, 1, 1] [5, 6, 6, 6])
    (by decide) (by decide) 1 [[(3 : ℚ)], [4]] (by decide)

/-- Modelled from the spec: the edge weight accumulated by
`confusion_graph` of `nlnas.correction.choice` (not under `src/`): the
number of samples whose true label is `a` and prediction `b`, or true
label `b` and prediction `a`. -/
def confusionWeight (y_pred y_true : List Nat) (a b : Nat) : Nat :=
  ((y_true.zip y_pred).filter
    (fun p => (p.1 == a && p.2 == b) || (p.1 == b && p.2 == a))).length

/-- Modelled from the spec: the edge set of the graph returned by
`confusion_graph` of `nlnas.correction.choice` (not under `src/`);
an unordered pair is stored as `(a, b)` with `a < b`, kept when its
accumulated weight is positive and not strictly below the threshold. -/
def confusion_graph_edges (y_pred y_true : List Nat) (C t : Nat) :
    Finset (Nat × Nat) :=
  ((Finset.range C) ×ˢ (Finset.range C)).filter
    (fun e => e.1 < e.2 ∧ 0 < confusionWeight y_pred y_true e.1 e.2
      ∧ t ≤ confusionWeight y_pred y_true e.1 e.2)

/-- Modelled from the spec: the node set of the confusion graph;
isolated classes (no surviving edge) are omitted. -/
def confusion_graph_nodes (y_pred y_true : List Nat) (C t : Nat) :
    Finset Nat :=
  (confusion_graph_edges y_pred y_true C t).biUnion
    (fun e => {e.1, e.2})

theorem filter_length_indices {α : Type} (p : α → Bool) (d : α) :
    ∀ l : List α,
      (l.filter p).length
        = ((List.range l.length).filter (fun j => p (l.getD j d))).length := by
  intro l
  induction l with
  | nil => rfl
  | cons x xs ih =>
    have hco : ∀ j ∈ List.range xs.length,
        ((fun j => p ((x :: xs).getD j d)) ∘ Nat.succ) j
          = (fun j => p (xs.getD j d)) j := by
      intro j hj
      simp [Function.comp]
    simp only [List.length_cons, List.range_succ_eq_map,
      List.filter_cons, List.getD_cons_zero]
    rw [List.filter_map, List.filter_congr hco]
    by_cases hx : p x = true
    · simp [hx, ih]
    · simp [hx, ih]

theorem getD_zip (as bs : List Nat) :
    ∀ j, j < as.length → j < bs.length →
      (as.zip bs).getD j (0, 0) = (as.getD j 0, bs.getD j 0) := by
  induction as generalizing bs with
  | nil => intro j hj; simp at hj
  | cons a as ih =>
    intro j hja hjb
    cases bs with
    | nil => simp at hjb
    | cons b bs =>
      cases j with
      | zero => simp
      | succ j =>
        simp only [List.zip_cons_cons, List.getD_cons_succ]
        exact ih bs j (Nat.lt_of_succ_lt_succ hja)
          (Nat.lt_of_succ_lt_succ hjb)

/-- C6: the confusion graph is an undirected simple graph without
self-loops; an unordered pair of distinct classes is an edge iff its
weight — the exact count of sample indices `j` with
`(y_true[j], y_pred[j])` equal to `(a, b)` or `(b, a)` — is positive
and not strictly below the threshold; the weight is symmetric; and on
`y_pred = [0,1,1,0]`, `y_true = [0,0,1,1]`, two classes, the graph has
exactly the edge `{0, 1}` with weight 2. -/
theorem C6_confusion_graph :
    (∀ (y_pred y_true : List Nat) (C t a : Nat),
      (a, a) ∉ confusion_graph_edges y_pred y_true C t)
    ∧ (∀ (y_pred y_true : List Nat) (C t a b : Nat),
        (a, b) ∈ confusion_graph_edges y_pred y_true C t ↔
          a < C ∧ b < C ∧ a < b
            ∧ 0 < confusionWeight y_pred y_true a b
            ∧ t ≤ confusionWeight y_pred y_true a b)
    ∧ (∀ (y_pred y_true : List Nat) (a b : Nat),
        confusionWeight y_pred y_true a b
          = ((List.range (min y_true.length y_pred.length)).filter
              (fun j => (y_true.getD j 0 == a && y_pred.getD j 0 == b)
                || (y_true.getD j 0 == b && y_pred.getD j 0 == a))).length)
    ∧ (∀ (y_pred y_true : List Nat) (a b : Nat),
        confusionWeight y_pred y_true a b
          = confusionWeight y_pred y_true b a)
    ∧ confusion_graph_edges [0, 1, 1, 0] [0, 0, 1, 1] 2 0 = {(0, 1)}
    ∧ confusionWeight [0, 1, 1, 0] [0, 0, 1, 1] 0 1 = 2 := by
  refine ⟨?_, ?_, ?_, ?_, by decide, by decide⟩
  · intro y_pred y_true C t a
    simp only [confusion_graph_edges, Finset.mem_filter]
    rintro ⟨-, h, -⟩
    exact lt_irrefl a h
  · intro y_pred y_true C t a b
    simp [confusion_graph_edges, Finset.mem_product, and_assoc]
  · intro y_pred y_true a b
    rw [confusionWeight,
      filter_length_indices
        (fun p => (p.1 == a && p.2 == b) || (p.1 == b && p.2 == a))
        (0, 0) (y_true.zip y_pred)]
    have hlz : (y_true.zip y_pred).length
        = min y_true.length y_pred.length := List.length_zip _ _
    rw [hlz]
    congr 1
    apply List.filter_congr
    intro j hj
    rw [List.mem_range] at hj
    rw [getD_zip y_true y_pred j (by omega) (by omega)]
  · intro y_pred y_true a b
    unfold confusionWeight
    congr 1
    apply List.filter_congr
    intro p hp
    exact Bool.or_comm _ _

/-- Witness for C6's membership characterization at the scenario
input. -/
theorem C6_confusion_graph_witness :
    (0, 1) ∈ confusion_graph_edges [0, 1, 1, 0] [0, 0, 1, 1] 2 0 :=
  (C6_confusion_graph.2.1 [0, 1, 1, 0] [0, 0, 1, 1] 2 0 0 1).mpr
    (by decide)

/-- A finite weighted undirected graph over class ids: a finite node
set and a weight function, `w a b = 0` meaning no edge. -/
structure WGraph where
  nodes : Finset Nat
  w : Nat → Nat → Nat

/-- Adjacency: distinct endpoints joined by a positive-weight edge. -/
def adjb (G : WGraph) (u v : Nat) : Bool :=
  decide (u ≠ v) && decide (0 < G.w u v)

/-- One breadth step of reachability inside the node subset `S`. -/
def stepR (G : WGraph) (S R : Finset Nat) : Finset Nat :=
  R ∪ S.filter (fun v => ∃ u ∈ R, adjb G u v = true)

/-- `n` breadth steps of reachability inside `S` starting from `R`. -/
def reach (G : WGraph) (S R : Finset Nat) : Nat → Finset Nat
  | 0 => R
  | n + 1 => stepR G S (reach G S R n)

/-- Connectivity of the node subset `S`: every node of `S` is reachable
inside `S` from `S`'s least element. -/
def connB (G : WGraph) (S : Finset Nat) : Bool :=
  if h : S.Nonempty then decide (S ⊆ reach G S {S.min' h} S.card)
  else true

/-- Total weight of the node-induced subgraph on `S`: each unordered
edge inside `S` counted once. -/
def totalWeight (G : WGraph) (S : Finset Nat) : Nat :=
  ((S ×ˢ S).filter (fun e => e.1 < e.2)).sum (fun e => G.w e.1 e.2)

/-- All subsets of the elements of a list, as finite sets, in a
canonical enumeration order. -/
def subLists : List Nat → List (Finset Nat)
  | [] => [∅]
  | x :: xs => subLists xs ++ (subLists xs).map (insert x)

/-- All non-empty connected node subsets of the graph, in the canonical
enumeration order over the sorted node list. -/
def candidateSets (G : WGraph) : List (Finset Nat) :=
  (subLists (G.nodes.sort (· ≤ ·))).filter
    (fun S => decide (S ≠ ∅) && connB G S)

/-- Modelled from the spec: `heaviest_connected_subgraph` of
`nlnas.correction.choice` (not under `src/`): exhaustive search over
the non-empty connected node subsets, returning one of maximal total
weight (first found in the canonical enumeration on ties) together
with that weight. -/
def heaviest_connected_subgraph (G : WGraph) : Finset Nat × Nat :=
  match candidateSets G with
  | [] => (∅, 0)
  | c :: cs =>
      (argmaxFold (totalWeight G) cs c,
       totalWeight G (argmaxFold (totalWeight G) cs c))

theorem subset_reach (G : WGraph) (S R : Finset Nat) :
    ∀ n, R ⊆ reach G S R n := by
  intro n
  induction n with
  | zero => exact subset_refl R
  | succ n ih =>
    refine subset_trans ih ?_
    simp only [reach, stepR]
    exact Finset.subset_union_left

theorem mem_subLists :
    ∀ (l : List Nat) (S : Finset Nat), S ∈ subLists l ↔ S ⊆ l.toFinset := by
  intro l
  induction l with
  | nil =>
    intro S
    simp [subLists, Finset.subset_empty]
  | cons x xs ih =>
    intro S
    simp only [subLists, List.mem_append, List.mem_map, ih]
    constructor
    · rintro (h | ⟨S', hS', rfl⟩)
      · intro y hy
        simp only [List.toFinset_cons, Finset.mem_insert]
        exact Or.inr (h hy)
      · intro y hy
        simp only [List.toFinset_cons, Finset.mem_insert]
        rcases Finset.mem_insert.mp hy with h1 | h1
        · exact Or.inl h1
        · exact Or.inr (hS' h1)
    · intro hsub
      by_cases hx : x ∈ S
      · right
        refine ⟨S.erase x, ?_, Finset.insert_erase hx⟩
        intro y hy
        have hyS := Finset.mem_of_mem_erase hy
        have hyx := Finset.ne_of_mem_erase hy
        have hm := hsub hyS
        simp only [List.toFinset_cons, Finset.mem_insert] at hm
        tauto
      · left
        intro y hy
        have hm := hsub hy
        simp only [List.toFinset_cons, Finset.mem_insert] at hm
        rcases hm with h1 | h1
        · exact absurd (h1 ▸ hy) hx
        · exact h1

theorem mem_candidateSets (G : WGraph) (S : Finset Nat) :
    S ∈ candidateSets G ↔
      S ⊆ G.nodes ∧ S ≠ ∅ ∧ connB G S = true := by
  simp [candidateSets, List.mem_filter, mem_subLists,
    Finset.sort_toFinset, Bool.and_eq_true, decide_eq_true_eq, and_assoc]

theorem connB_singleton (G : WGraph) (v : Nat) : connB G {v} = true := by
  unfold connB
  rw [dif_pos (Finset.singleton_nonempty v), decide_eq_true_eq,
    Finset.min'_singleton]
  exact subset_reach G {v} {v} ({v} : Finset Nat).card

theorem totalWeight_zero (G : WGraph) (hE : ∀ a b, G.w a b = 0)
    (S : Finset Nat) : totalWeight G S = 0 :=
  Finset.sum_eq_zero (fun e _ => hE e.1 e.2)

theorem stepR_no_edges (G : WGraph) (hE : ∀ a b, G.w a b = 0)
    (S R : Finset Nat) : stepR G S R = R := by
  unfold stepR
  have h : S.filter (fun v => ∃ u ∈ R, adjb G u v = true) = ∅ := by
    rw [Finset.filter_eq_empty_iff]
    intro v hv hex
    obtain ⟨u, -, hadj⟩ := hex
    simp [adjb, hE] at hadj
  rw [h, Finset.union_empty]

theorem reach_no_edges (G : WGraph) (hE : ∀ a b, G.w a b = 0)
    (S R : Finset Nat) : ∀ n, reach G S R n = R := by
  intro n
  induction n with
  | zero => rfl
  | succ n ih =>
    simp only [reach, ih]
    exact stepR_no_edges G hE S R

theorem connB_no_edges_card (G : WGraph) (hE : ∀ a b, G.w a b = 0)
    (S : Finset Nat) (hne : S ≠ ∅) (hconn : connB G S = true) :
    S.card = 1 := by
  have hS : S.Nonempty := Finset.nonempty_iff_ne_empty.mpr hne
  unfold connB at hconn
  rw [dif_pos hS, decide_eq_true_eq, reach_no_edges G hE] at hconn
  have hv : S.min' hS ∈ S := Finset.min'_mem S hS
  have : S = {S.min' hS} :=
    Finset.Subset.antisymm hconn (Finset.singleton_subset_iff.mpr hv)
  rw [this]
  exact Finset.card_singleton _

theorem candidateSets_ne_nil (G : WGraph) (hne : G.nodes.Nonempty) :
    candidateSets G ≠ [] := by
  obtain ⟨v, hv⟩ := hne
  intro h
  have hmem : {v} ∈ candidateSets G :=
    (mem_candidateSets G {v}).mpr
      ⟨Finset.singleton_subset_iff.mpr hv, by simp, connB_singleton G v⟩
  rw [h] at hmem
  simp at hmem

/-- C7: on any graph with at least one node, the selector returns a
non-empty connected node-induced subgraph of maximal total weight over
all non-empty connected node subsets, paired with that weight; on a
graph with no edges the result is a single node with weight 0. -/
theorem C7_heaviest_subgraph (G : WGraph) (hne : G.nodes.Nonempty) :
    (heaviest_connected_subgraph G).1 ⊆ G.nodes
    ∧ (heaviest_connected_subgraph G).1 ≠ ∅
    ∧ connB G (heaviest_connected_subgraph G).1 = true
    ∧ (heaviest_connected_subgraph G).2
        = totalWeight G (heaviest_connected_subgraph G).1
    ∧ (∀ S, S ⊆ G.nodes → S ≠ ∅ → connB G S = true →
        totalWeight G S ≤ (heaviest_connected_subgraph G).2)
    ∧ ((∀ a b, G.w a b = 0) →
        (heaviest_connected_subgraph G).1.card = 1
        ∧ (heaviest_connected_subgraph G).2 = 0) := by
  cases hc : candidateSets G with
  | nil => exact absurd hc (candidateSets_ne_nil G hne)
  | cons c cs =>
    have hh : heaviest_connected_subgraph G
        = (argmaxFold (totalWeight G) cs c,
           totalWeight G (argmaxFold (totalWeight G) cs c)) := by
      unfold heaviest_connected_subgraph
      rw [hc]
    have hmem : argmaxFold (totalWeight G) cs c ∈ candidateSets G := by
      rw [hc]
      exact argmaxFold_mem (totalWeight G) cs c
    have hprops := (mem_candidateSets G _).mp hmem
    rw [hh]
    refine ⟨hprops.1, hprops.2.1, hprops.2.2, rfl, ?_, ?_⟩
    · intro S hS hSne hSconn
      have hSmem : S ∈ candidateSets G :=
        (mem_candidateSets G S).mpr ⟨hS, hSne, hSconn⟩
      rw [hc] at hSmem
      exact argmaxFold_le (totalWeight G) cs c S hSmem
    · intro hE
      exact ⟨connB_no_edges_card G hE _ hprops.2.1 hprops.2.2,
        totalWeight_zero G hE _⟩

/-- A two-node graph with a single edge of weight 2. -/
def exampleGraph : WGraph :=
  ⟨{0, 1}, fun a b =>
    if (a = 0 ∧ b = 1) ∨ (a = 1 ∧ b = 0) then 2 else 0⟩

/-- Witness for C7 on the two-node, one-edge graph. -/
theorem C7_heaviest_subgraph_witness :
    (heaviest_connected_subgraph exampleGraph).1 ⊆ exampleGraph.nodes
    ∧ (heaviest_connected_subgraph exampleGraph).1 ≠ ∅
    ∧ connB exampleGraph (heaviest_connected_subgraph exampleGraph).1
        = true
    ∧ (heaviest_connected_subgraph exampleGraph).2
        = totalWeight exampleGraph
            (heaviest_connected_subgraph exampleGraph).1
    ∧ (∀ S, S ⊆ exampleGraph.nodes → S ≠ ∅ →
        connB exampleGraph S = true →
        totalWeight exampleGraph S
          ≤ (heaviest_connected_subgraph exampleGraph).2)
    ∧ ((∀ a b, exampleGraph.w a b = 0) →
        (heaviest_connected_subgraph exampleGraph).1.card = 1
        ∧ (heaviest_connected_subgraph exampleGraph).2 = 0) :=
  C7_heaviest_subgraph exampleGraph (by decide)

/-- Modelled from the spec: the thresholded confusion graph built by
`confusion_graph` of `nlnas.correction.choice` (not under `src/`), as a
weighted graph: nodes are the non-isolated classes and the weight of a
surviving unordered pair is its accumulated confusion count. -/
def cgraph (y_pred y_true : List Nat) (C t : Nat) : WGraph :=
  ⟨confusion_graph_nodes y_pred y_true C t,
   fun a b =>
     if a ≠ b ∧ 0 < confusionWeight y_pred y_true a b
         ∧ t ≤ confusionWeight y_pred y_true a b
       then confusionWeight y_pred y_true a b else 0⟩

/-- Total weight of the heaviest connected subgraph of the confusion
graph built at threshold `t`. -/
def heaviestWeightAt (y_pred y_true : List Nat) (C t : Nat) : Nat :=
  (heaviest_connected_subgraph (cgraph y_pred y_true C t)).2

theorem cgraph_w_le (y_pred y_true : List Nat) (C t1 t2 : Nat)
    (h : t1 ≤ t2) :
    ∀ a b, (cgraph y_pred y_true C t2).w a b
      ≤ (cgraph y_pred y_true C t1).w a b := by
  intro a b
  simp only [cgraph]
  by_cases hc : a ≠ b ∧ 0 < confusionWeight y_pred y_true a b
      ∧ t2 ≤ confusionWeight y_pred y_true a b
  · rw [if_pos hc, if_pos ⟨hc.1, hc.2.1, le_trans h hc.2.2⟩]
  · rw [if_neg hc]
    exact Nat.zero_le _

theorem cgraph_adj_imp (y_pred y_true : List Nat) (C t1 t2 : Nat)
    (h : t1 ≤ t2) :
    ∀ u v, adjb (cgraph y_pred y_true C t2) u v = true →
      adjb (cgraph y_pred y_true C t1) u v = true := by
  intro u v hadj
  simp only [adjb, Bool.and_eq_true, decide_eq_true_eq] at hadj ⊢
  exact ⟨hadj.1,
    lt_of_lt_of_le hadj.2 (cgraph_w_le y_pred y_true C t1 t2 h u v)⟩

theorem reach_subset_mono (G1 G2 : WGraph) (S : Finset Nat)
    (hadj : ∀ u v, adjb G2 u v = true → adjb G1 u v = true) :
    ∀ (n : Nat) (R R' : Finset Nat), R ⊆ R' →
      reach G2 S R n ⊆ reach G1 S R' n := by
  intro n
  induction n with
  | zero => intro R R' h; exact h
  | succ n ih =>
    intro R R' h
    simp only [reach, stepR]
    apply Finset.union_subset_union (ih R R' h)
    intro v hv
    rw [Finset.mem_filter] at hv ⊢
    obtain ⟨hvS, u, hu, hadj2⟩ := hv
    exact ⟨hvS, u, ih R R' h hu, hadj u v hadj2⟩

theorem connB_imp (G1 G2 : WGraph) (S : Finset Nat)
    (hadj : ∀ u v, adjb G2 u v = true → adjb G1 u v = true)
    (hconn : connB G2 S = true) : connB G1 S = true := by
  unfold connB at hconn ⊢
  by_cases h : S.Nonempty
  · rw [dif_pos h] at hconn ⊢
    rw [decide_eq_true_eq] at hconn ⊢
    exact fun x hx =>
      reach_subset_mono G1 G2 S hadj S.card {S.min' h} {S.min' h}
        (subset_refl _) (hconn hx)
  · rw [dif_neg h]

theorem edges_antitone (y_pred y_true : List Nat) (C t1 t2 : Nat)
    (h : t1 ≤ t2) :
    confusion_graph_edges y_pred y_true C t2
      ⊆ confusion_graph_edges y_pred y_true C t1 := by
  intro e he
  simp only [confusion_graph_edges, Finset.mem_filter] at he ⊢
  exact ⟨he.1, he.2.1, he.2.2.1, le_trans h he.2.2.2⟩

theorem nodes_antitone (y_pred y_true : List Nat) (C t1 t2 : Nat)
    (h : t1 ≤ t2) :
    confusion_graph_nodes y_pred y_true C t2
      ⊆ confusion_graph_nodes y_pred y_true C t1 := by
  unfold confusion_graph_nodes
  exact Finset.biUnion_subset_biUnion_of_subset_left _
    (edges_antitone y_pred y_true C t1 t2 h)

theorem totalWeight_le_of_w_le (G1 G2 : WGraph) (S : Finset Nat)
    (hle : ∀ a b, G2.w a b ≤ G1.w a b) :
    totalWeight G2 S ≤ totalWeight G1 S :=
  Finset.sum_le_sum (fun e _ => hle e.1 e.2)

/-- C8: for a fixed prediction/label pair and class count, the total
weight of the heaviest connected subgraph of the confusion graph is
monotonically non-decreasing as the threshold decreases: `t1 ≤ t2`
implies the weight achievable at `t2` is at most that at `t1`. -/
theorem C8_threshold_monotone (y_pred y_true : List Nat) (C t1 t2 : Nat)
    (h : t1 ≤ t2) :
    heaviestWeightAt y_pred y_true C t2
      ≤ heaviestWeightAt y_pred y_true C t1 := by
  cases hc2 : candidateSets (cgraph y_pred y_true C t2) with
  | nil =>
    have h2 : heaviestWeightAt y_pred y_true C t2 = 0 := by
      unfold heaviestWeightAt heaviest_connected_subgraph
      rw [hc2]
    rw [h2]
    exact Nat.zero_le _
  | cons c cs =>
    have h2 : heaviestWeightAt y_pred y_true C t2
        = totalWeight (cgraph y_pred y_true C t2)
            (argmaxFold (totalWeight (cgraph y_pred y_true C t2)) cs c) := by
      unfold heaviestWeightAt heaviest_connected_subgraph
      rw [hc2]
    have hmem2 : argmaxFold (totalWeight (cgraph y_pred y_true C t2)) cs c
        ∈ candidateSets (cgraph y_pred y_true C t2) := by
      rw [hc2]
      exact argmaxFold_mem _ cs c
    obtain ⟨hsub2, hne2, hconn2⟩ := (mem_candidateSets _ _).mp hmem2
    have hadj := cgraph_adj_imp y_pred y_true C t1 t2 h
    have hmem1 : argmaxFold (totalWeight (cgraph y_pred y_true C t2)) cs c
        ∈ candidateSets (cgraph y_pred y_true C t1) :=
      (mem_candidateSets _ _).mpr
        ⟨subset_trans hsub2 (nodes_antitone y_pred y_true C t1 t2 h),
         hne2, connB_imp _ _ _ hadj hconn2⟩
    cases hc1 : candidateSets (cgraph y_pred y_true C t1) with
    | nil =>
      rw [hc1] at hmem1
      simp at hmem1
    | cons d ds =>
      have h1 : heaviestWeightAt y_pred y_true C t1
          = totalWeight (cgraph y_pred y_true C t1)
              (argmaxFold (totalWeight (cgraph y_pred y_true C t1)) ds d) := by
        unfold heaviestWeightAt heaviest_connected_subgraph
        rw [hc1]
      rw [h1, h2]
      have step1 : totalWeight (cgraph y_pred y_true C t2)
            (argmaxFold (totalWeight (cgraph y_pred y_true C t2)) cs c)
          ≤ totalWeight (cgraph y_pred y_true C t1)
            (argmaxFold (totalWeight (cgraph y_pred y_true C t2)) cs c) :=
        totalWeight_le_of_w_le _ _ _ (cgraph_w_le y_pred y_true C t1 t2 h)
      rw [hc1] at hmem1
      exact le_trans step1
        (argmaxFold_le (totalWeight (cgraph y_pred y_true C t1)) ds d _
          hmem1)

/-- Witness for C8 at the scenario input with thresholds 1 ≤ 2. -/
theorem C8_threshold_monotone_witness :
    heaviestWeightAt [0, 1, 1, 0] [0, 0, 1, 1] 2 2
      ≤ heaviestWeightAt [0, 1, 1, 0] [0, 0, 1, 1] 2 1 :=
  C8_threshold_monotone [0, 1, 1, 0] [0, 0, 1, 1] 2 1 2 (by decide)

/-- The Python variable names occurring in the notebook cell that
reports the top confusion pair. -/
inductive PyName where
  | top_confusion_pairs
  | y_pred
  | y_true
  | np
  | tcp5
  | a
  | b
  | logging
  | tcp
  | graph
  deriving DecidableEq

/-- A Python statement abstracted to the names it reads and the names
it binds. -/
structure PyStmt where
  reads : List PyName
  writes : List PyName

/-- Run one statement: the first read of a name absent from the
environment raises `NameError` on that name; otherwise the written
names are bound. -/
def runStmt (env : List PyName) (s : PyStmt) :
    Except PyName (List PyName) :=
  match s.reads.find? (fun x => !(env.contains x)) with
  | some x => Except.error x
  | none => Except.ok (s.writes ++ env)

/-- Run the statements of a cell in order, stopping at the first
`NameError`. -/
def runCell (env : List PyName) : List PyStmt → Except PyName (List PyName)
  | [] => Except.ok env
  | s :: rest =>
    match runStmt env s with
    | Except.error x => Except.error x
    | Except.ok env2 => runCell env2 rest

/-- The top-confusion-pair reporting cell of `src/clst_check.ipynb`:
the import, `tcp5 = top_confusion_pairs(y_pred, y_true, n_classes=…,
n_pairs=5)`, `a, b = tcp5[0]`, then the `logging.info` call whose
arguments read `tcp` and `graph.edges[a, b]`. -/
def topConfusionCell : List PyStmt :=
  [⟨[], [PyName.top_confusion_pairs]⟩,
   ⟨[PyName.top_confusion_pairs, PyName.y_pred, PyName.y_true, PyName.np],
    [PyName.tcp5]⟩,
   ⟨[PyName.tcp5], [PyName.a, PyName.b]⟩,
   ⟨[PyName.logging, PyName.tcp, PyName.graph, PyName.a, PyName.b], []⟩]

/-- All names bound by a cell. -/
def cellWrites (cell : List PyStmt) : List PyName :=
  (cell.map PyStmt.writes).flatten

/-- C10: in any environment that provides the names bound by earlier
cells but no binding for `tcp` (which no statement of the cell — nor of
the notebook — ever writes), running the top-confusion-pair cell raises
`NameError` on `tcp` at the logging call: the cell cannot complete. -/
theorem C10_tcp_name_error (env : List PyName)
    (h1 : env.contains PyName.y_pred = true)
    (h2 : env.contains PyName.y_true = true)
    (h3 : env.contains PyName.np = true)
    (h4 : env.contains PyName.logging = true)
    (h5 : env.contains PyName.graph = true)
    (h6 : env.contains PyName.tcp = false) :
    runCell env topConfusionCell = Except.error PyName.tcp
    ∧ PyName.tcp ∉ cellWrites topConfusionCell := by
  refine ⟨?_, by decide⟩
  have m1 : PyName.y_pred ∈ env := by simpa using h1
  have m2 : PyName.y_true ∈ env := by simpa using h2
  have m3 : PyName.np ∈ env := by simpa using h3
  have m4 : PyName.logging ∈ env := by simpa using h4
  have m5 : PyName.graph ∈ env := by simpa using h5
  have m6 : PyName.tcp ∉ env := by simpa using h6
  simp [runCell, runStmt, topConfusionCell, List.find?,
    m1, m2, m3, m4, m5, m6]

/-- Witness for C10 at a concrete environment holding exactly the
externally provided names. -/
theorem C10_tcp_name_error_witness :
    runCell
        [PyName.y_pred, PyName.y_true, PyName.np, PyName.logging,
          PyName.graph] topConfusionCell = Except.error PyName.tcp
    ∧ PyName.tcp ∉ cellWrites topConfusionCell :=
  C10_tcp_name_error
    [PyName.y_pred, PyName.y_true, PyName.np, PyName.logging,
      PyName.graph] (by decide) (by decide) (by decide) (by decide)
    (by decide) (by decide)
